import Mathlib

/-!
Verification of the two-party Schnorr multi-signature protocol implemented in
`src/protocols/multi_sig/mod.rs` (key aggregation, commit-then-reveal nonce
exchange, Fiat-Shamir challenge, partial signing, aggregation, verification).

Modelling conventions (shallow embedding):

* The external cryptographic library (`cryptography_utils`) is an explicit
  collaborator, bundled in the structure `Algebra`:
  - the prime-order curve group of order `q` with fixed generator `G` is
    represented by its exponent group `ZMod q` (every cyclic group of order
    `q` arises this way), with `G = 1`; `scalar_mul P k = k * P` and
    `add_point P Q = P + Q` are the induced operations;
  - `get_x_coor_as_big_int` and `bytes_compressed_to_big_int` are arbitrary
    functions `xcoor, compressed : ZMod q → ℤ`;
  - `HSha256::create_hash` is an arbitrary function `hash : List ℤ → ℤ`;
  - `HashCommitment::create_commitment_with_user_defined_randomness` is an
    arbitrary function `commit : ℤ → ℤ → ℤ`.
* Rust `BigInt` is `ℤ`; `BigInt::mod_add / mod_mul / mod_sub` reduce with
  `Int.emod`, which agrees with `mod_floor` for the positive modulus `q`.
* Every internal random sampling (`ECScalar::new_random`, the fresh key of
  `KeyPair::create`, the blind factor drawn inside
  `HashCommitment::create_commitment`) is passed as an explicit argument.
* `FE` (a field element) is `ZMod q`; `ECScalar::from_big_int` reduces an
  integer mod `q` (the cast `ℤ → ZMod q`), `to_big_int` is `ZMod.val`.
* A message `&[u8]` enters every hash only through `BigInt::from(message)`;
  it is modelled directly by that integer.
* `verify` compares the `to_hex` strings of two `BigInt`s; `to_hex` is
  injective, so the comparison is modelled as equality in `ℤ`.
-/

namespace MultiSig

/-- The external algebra/hash/commitment collaborator, with the curve group
of order `q` represented by its exponent group `ZMod q`. -/
structure Algebra where
  q : ℕ
  q_pos : 0 < q
  xcoor : ZMod q → ℤ
  compressed : ZMod q → ℤ
  hash : List ℤ → ℤ
  commit : ℤ → ℤ → ℤ

instance (A : Algebra) : NeZero A.q := ⟨A.q_pos.ne'⟩

/-- BigInt::mod_add of the arithmetic traits: `(a + b) mod m`. -/
def BigInt.mod_add (a b m : ℤ) : ℤ := (a + b) % m

/-- BigInt::mod_mul: `(a * b) mod m`. -/
def BigInt.mod_mul (a b m : ℤ) : ℤ := (a * b) % m

/-- BigInt::mod_sub: `(a - b) mod m`. -/
def BigInt.mod_sub (a b m : ℤ) : ℤ := (a - b) % m

variable (A : Algebra)

/-- ECPoint::new(): the fixed generator of the group; in the exponent
representation it is `1`. -/
def ECPoint.new : ZMod A.q := 1

/-- GE::scalar_mul: scalar multiplication `P.scalar_mul(k)`. -/
def GE.scalar_mul (P k : ZMod A.q) : ZMod A.q := k * P

/-- GE::add_point: point addition. -/
def GE.add_point (P Q : ZMod A.q) : ZMod A.q := P + Q

/-- ECScalar::from_big_int: reduce an integer mod `q`. -/
def FE.from_big_int (n : ℤ) : ZMod A.q := (n : ZMod A.q)

/-- FE::to_big_int: the canonical representative in `[0, q)`. -/
def FE.to_big_int (k : ZMod A.q) : ℤ := (k.val : ℤ)

/-- ECScalar::get_q, called on a freshly sampled scalar `t`: returns the
curve order and ignores the receiver. -/
def FE.get_q (_t : ZMod A.q) : ℤ := (A.q : ℤ)

/-- HashCommitment::create_commitment, with the internally sampled blind
factor `bf` passed explicitly; returns `(commitment, blind_factor)`. -/
def HashCommitment.create_commitment (m bf : ℤ) : ℤ × ℤ := (A.commit m bf, bf)

/-- A signer's key pair. -/
structure KeyPair (A : Algebra) where
  public_key : ZMod A.q
  private_key : ZMod A.q

/-- KeyPair::create, with the sampled secret scalar passed explicitly. -/
def KeyPair.create (sk : ZMod A.q) : KeyPair A :=
  let ec_point := ECPoint.new A
  let private_key := sk
  let public_key := GE.scalar_mul A ec_point private_key
  ⟨public_key, private_key⟩

/-- KeyPair::create_from_private_key. -/
def KeyPair.create_from_private_key (n : ℤ) : KeyPair A :=
  let ec_point := ECPoint.new A
  let private_key := FE.from_big_int A n
  let public_key := GE.scalar_mul A ec_point private_key
  ⟨public_key, private_key⟩

/-- Aggregated public key together with this party's own coefficient. -/
structure KeyAgg (A : Algebra) where
  apk : ZMod A.q
  hash : ℤ

/-- KeyAgg::key_aggregation for two parties. -/
def KeyAgg.key_aggregation (my_pk other_pk : ZMod A.q) : KeyAgg A :=
  let hash := A.hash [1, A.xcoor my_pk, A.xcoor my_pk, A.xcoor other_pk]
  let hash_fe := FE.from_big_int A hash
  let a1 := GE.scalar_mul A my_pk hash_fe
  let hash2 := A.hash [1, A.xcoor other_pk, A.xcoor my_pk, A.xcoor other_pk]
  let hash2_fe := FE.from_big_int A hash2
  let a2 := GE.scalar_mul A other_pk hash2_fe
  let apk := GE.add_point A a2 a1
  ⟨apk, hash⟩

/-- KeyAgg::key_aggregation_n. The two panicking accesses of the Rust code
(`remove(0)` on an empty vector, then `hash_vec[party_index]` out of
bounds) are modelled by `none`, in the order the Rust code reaches them. -/
def KeyAgg.key_aggregation_n (pks : List (ZMod A.q)) (party_index : ℕ) :
    Option (KeyAgg A) :=
  let bn_1 : ℤ := 1
  let x_coor_vec : List ℤ := pks.map fun p => A.xcoor p
  let hash_vec : List ℤ := x_coor_vec.map fun pk => A.hash (bn_1 :: pk :: x_coor_vec)
  let apk_vec : List (ZMod A.q) := (pks.zip hash_vec).map fun ph =>
    GE.scalar_mul A ph.1 (FE.from_big_int A ph.2)
  match apk_vec with
  | [] => none
  | pk1 :: rest =>
      let sum := rest.foldl (fun acc pk => GE.add_point A acc pk) pk1
      (hash_vec[party_index]?).map fun h => ⟨sum, h⟩

/-- Per-session ephemeral (nonce) key with its commitment data. -/
structure EphemeralKey (A : Algebra) where
  keypair : KeyPair A
  commitment : ℤ
  blind_factor : ℤ

/-- EphemeralKey::create, with the sampled nonce scalar and blind factor
passed explicitly; commits to the x-coordinate of the nonce point. -/
def EphemeralKey.create (sk : ZMod A.q) (bf : ℤ) : EphemeralKey A :=
  let keypair := KeyPair.create A sk
  let cb := HashCommitment.create_commitment A (A.xcoor keypair.public_key) bf
  ⟨keypair, cb.1, cb.2⟩

/-- EphemeralKey::create_from_private_key: deterministic nonce
`H(private_key, message)`; note that the commitment is over the
compressed-bytes encoding of the nonce point, not its x-coordinate. -/
def EphemeralKey.create_from_private_key (x1 : KeyPair A) (message : ℤ)
    (bf : ℤ) : EphemeralKey A :=
  let base_point := ECPoint.new A
  let hash_private_key_message :=
    A.hash [FE.to_big_int A x1.private_key, message]
  let ephemeral_private_key := FE.from_big_int A hash_private_key_message
  let ephemeral_public_key := GE.scalar_mul A base_point ephemeral_private_key
  let cb := HashCommitment.create_commitment A
    (A.compressed ephemeral_public_key) bf
  ⟨⟨ephemeral_public_key, ephemeral_private_key⟩, cb.1, cb.2⟩

/-- EphemeralKey::test_com: recompute the commitment from the revealed
point's x-coordinate and the blind factor and compare. -/
def EphemeralKey.test_com (r_to_test : ZMod A.q) (blind_factor comm : ℤ) :
    Bool :=
  let computed_comm := A.commit (A.xcoor r_to_test) blind_factor
  computed_comm == comm

/-- EphemeralKey::add_ephemeral_pub_keys. -/
def EphemeralKey.add_ephemeral_pub_keys (r1 r2 : ZMod A.q) : ZMod A.q :=
  GE.add_point A r1 r2

/-- EphemeralKey::hash_0: the Fiat-Shamir challenge, with the `0` domain
prefix exactly when `musig_bit` is set. -/
def EphemeralKey.hash_0 (r_hat apk : ZMod A.q) (message : ℤ)
    (musig_bit : Bool) : ℤ :=
  if musig_bit then
    A.hash [0, A.xcoor r_hat, A.compressed apk, message]
  else
    A.hash [A.xcoor r_hat, A.compressed apk, message]

/-- EphemeralKey::add_signature_parts; `temps` is the scalar sampled only to
read off the curve order. -/
def EphemeralKey.add_signature_parts (temps : ZMod A.q) (s1 s2 : ℤ)
    (r_tag : ZMod A.q) : ℤ × ℤ :=
  let curve_order := FE.get_q A temps
  (A.xcoor r_tag, BigInt.mod_add s1 s2 curve_order)

/-- EphemeralKey::sign: the partial signature
`nonce + c * (x * a mod q) mod q mod q`. -/
def EphemeralKey.sign (temps : ZMod A.q) (r : EphemeralKey A) (c : ℤ)
    (x : KeyPair A) (a : ℤ) : ℤ :=
  let curve_order := FE.get_q A temps
  BigInt.mod_add (FE.to_big_int A r.keypair.private_key)
    (BigInt.mod_mul c
      (BigInt.mod_mul (FE.to_big_int A x.private_key) a curve_order)
      curve_order)
    curve_order

/-- The error value returned on a failed verification. -/
structure ProofError where

/-- verify: recompute the challenge, form `s*G + (-c)*apk` and compare its
x-coordinate with `r_x`. -/
def verify (temps : ZMod A.q) (signature r_x : ℤ) (apk : ZMod A.q)
    (message : ℤ) (musig_bit : Bool) : Except ProofError Unit :=
  let base_point := ECPoint.new A
  let curve_order := FE.get_q A temps
  let c : ℤ :=
    if musig_bit then
      A.hash [0, r_x, A.compressed apk, message]
    else
      A.hash [r_x, A.compressed apk, message]
  let minus_c := BigInt.mod_sub curve_order c curve_order
  let minus_c_fe := FE.from_big_int A minus_c
  let signature_fe := FE.from_big_int A signature
  let sG := GE.scalar_mul A base_point signature_fe
  let cY := GE.scalar_mul A apk minus_c_fe
  let sG2 := GE.add_point A sG cY
  if A.xcoor sG2 = r_x then Except.ok () else Except.error ⟨⟩

/-- A small concrete instance of the collaborator, used to evaluate the
definitions on explicit inputs. -/
def testAlg : Algebra where
  q := 7
  q_pos := Nat.succ_pos 6
  xcoor := fun P => (P.val : ℤ)
  compressed := fun P => (P.val : ℤ) + 100
  hash := fun l => l.foldl (fun a x => 3 * a + x % 1000 + 1) 5
  commit := fun m bf => m * 4096 + bf

/-- The complete two-party signing flow followed by verification: aggregate
the two public keys, fetch each party's coefficient from the N-party
aggregator, aggregate the revealed nonce points, derive the shared
challenge, produce and combine the partial signatures, and verify the
result against the aggregated key. -/
def round_trip_verify (x1 x2 r1 r2 : ZMod A.q) (bf1 bf2 m : ℤ)
    (t1 t2 t3 t4 : ZMod A.q) (b : Bool) : Except ProofError Unit :=
  let kp1 := KeyPair.create A x1
  let kp2 := KeyPair.create A x2
  let e1 := EphemeralKey.create A r1 bf1
  let e2 := EphemeralKey.create A r2 bf2
  let apk := (KeyAgg.key_aggregation A kp1.public_key kp2.public_key).apk
  let a1 := ((KeyAgg.key_aggregation_n A
    [kp1.public_key, kp2.public_key] 0).getD ⟨0, 0⟩).hash
  let a2 := ((KeyAgg.key_aggregation_n A
    [kp1.public_key, kp2.public_key] 1).getD ⟨0, 0⟩).hash
  let R := EphemeralKey.add_ephemeral_pub_keys A
    e1.keypair.public_key e2.keypair.public_key
  let c := EphemeralKey.hash_0 A R apk m b
  let s1 := EphemeralKey.sign A t1 e1 c kp1 a1
  let s2 := EphemeralKey.sign A t2 e2 c kp2 a2
  let sig := EphemeralKey.add_signature_parts A t3 s1 s2 R
  verify A t4 sig.2 sig.1 apk m b

/-- Casting a residue `a mod q` into `ZMod q` is the same as casting `a`. -/
lemma intCast_q_mod (a : ℤ) :
    ((a % (A.q : ℤ) : ℤ) : ZMod A.q) = (a : ZMod A.q) :=
  ZMod.intCast_mod a A.q

/-- Casting the canonical representative of a scalar back into `ZMod q`
recovers the scalar. -/
lemma to_big_int_cast (k : ZMod A.q) :
    ((FE.to_big_int A k : ℤ) : ZMod A.q) = k := by
  simp [FE.to_big_int]

/-- The negated challenge `(q - c) mod q` is `-c` in the scalar field. -/
lemma mod_sub_q_cast (c : ℤ) :
    ((BigInt.mod_sub (A.q : ℤ) c (A.q : ℤ) : ℤ) : ZMod A.q) = -(c : ZMod A.q) := by
  rw [BigInt.mod_sub, intCast_q_mod]
  push_cast
  simp

/-- Unfolding of `verify`: it recomputes the challenge and tests the
x-coordinate of `s*G - c*apk` against `r_x`. -/
lemma verify_eq (t : ZMod A.q) (s r_x : ℤ) (apk : ZMod A.q) (m : ℤ)
    (b : Bool) :
    verify A t s r_x apk m b =
      if A.xcoor ((s : ZMod A.q) * ECPoint.new A -
          ((if b then A.hash [0, r_x, A.compressed apk, m]
            else A.hash [r_x, A.compressed apk, m] : ℤ) : ZMod A.q) * apk) = r_x
      then Except.ok ()
      else Except.error ProofError.mk := by
  simp only [verify, GE.scalar_mul, GE.add_point, FE.from_big_int, FE.get_q]
  simp only [mod_sub_q_cast, neg_mul, ← sub_eq_add_neg]

/-- C2: `verify(s, r_x, apk, m, b)` recomputes the challenge as
`H(0, r_x, compressed(apk), m)` when `b` is set and `H(r_x, compressed(apk), m)`
otherwise, forms `S = s*G - c*apk`, and returns `Ok(())` exactly when the
x-coordinate of `S` equals `r_x`, returning `Err(ProofError)` otherwise,
with no other effect. -/
theorem verify_characterization (t : ZMod A.q) (s r_x : ℤ) (apk : ZMod A.q)
    (m : ℤ) (b : Bool) :
    verify A t s r_x apk m b =
      if A.xcoor ((s : ZMod A.q) * ECPoint.new A -
          ((if b then A.hash [0, r_x, A.compressed apk, m]
            else A.hash [r_x, A.compressed apk, m] : ℤ) : ZMod A.q) * apk) = r_x
      then Except.ok ()
      else Except.error ProofError.mk :=
  verify_eq A t s r_x apk m b

/-- Unfolding of the pairwise aggregator. -/
lemma key_aggregation_eq (p1 p2 : ZMod A.q) :
    KeyAgg.key_aggregation A p1 p2 =
      { apk := (A.hash [1, A.xcoor p2, A.xcoor p1, A.xcoor p2] : ZMod A.q) * p2 +
               (A.hash [1, A.xcoor p1, A.xcoor p1, A.xcoor p2] : ZMod A.q) * p1,
        hash := A.hash [1, A.xcoor p1, A.xcoor p1, A.xcoor p2] } := rfl

/-- C4: `key_aggregation(my_pk, other_pk)` returns
`apk = h_other * other_pk + h_mine * my_pk` paired with `hash = h_mine`,
where `h_mine = H(1, X_mine, X_mine, X_other)` and
`h_other = H(1, X_other, X_mine, X_other)` over the x-coordinates in the
fixed pair order, each reduced to a scalar mod `q` before multiplying. -/
theorem key_aggregation_formula (p1 p2 : ZMod A.q) :
    KeyAgg.key_aggregation A p1 p2 =
      { apk := (A.hash [1, A.xcoor p2, A.xcoor p1, A.xcoor p2] : ZMod A.q) * p2 +
               (A.hash [1, A.xcoor p1, A.xcoor p1, A.xcoor p2] : ZMod A.q) * p1,
        hash := A.hash [1, A.xcoor p1, A.xcoor p1, A.xcoor p2] } :=
  key_aggregation_eq A p1 p2

/-- C7: `sign(r, c, x, a)` returns exactly
`(nonce_scalar + c * private_key * a) mod q`,
a function of those inputs alone. -/
theorem sign_formula (t : ZMod A.q) (r : EphemeralKey A) (c : ℤ)
    (x : KeyPair A) (a : ℤ) :
    EphemeralKey.sign A t r c x a =
      (FE.to_big_int A r.keypair.private_key +
        c * FE.to_big_int A x.private_key * a) % (A.q : ℤ) := by
  simp only [EphemeralKey.sign, FE.get_q, BigInt.mod_add, BigInt.mod_mul]
  refine (ZMod.intCast_eq_intCast_iff' _ _ A.q).mp ?_
  push_cast [intCast_q_mod]
  ring

/-- C8: `add_signature_parts(s1, s2, R)` returns exactly
`(R.x, (s1 + s2) mod q)` and is commutative in the two partial scalars. -/
theorem add_signature_parts_formula (t : ZMod A.q) (s1 s2 : ℤ)
    (R : ZMod A.q) :
    EphemeralKey.add_signature_parts A t s1 s2 R =
      (A.xcoor R, (s1 + s2) % (A.q : ℤ)) ∧
    EphemeralKey.add_signature_parts A t s1 s2 R =
      EphemeralKey.add_signature_parts A t s2 s1 R := by
  refine ⟨rfl, ?_⟩
  simp only [EphemeralKey.add_signature_parts, BigInt.mod_add, FE.get_q]
  rw [Int.add_comm s1 s2]

/-- C9: `sign`, `add_signature_parts` and `verify` sample a scalar only to
read off the curve order through `get_q`, so each is a deterministic
function of its explicit arguments: the sampled value never influences the
result. -/
theorem randomness_independence :
    (∀ t : ZMod A.q, FE.get_q A t = (A.q : ℤ)) ∧
    (∀ (t t' : ZMod A.q) (r : EphemeralKey A) (c : ℤ) (x : KeyPair A) (a : ℤ),
      EphemeralKey.sign A t r c x a = EphemeralKey.sign A t' r c x a) ∧
    (∀ (t t' : ZMod A.q) (s1 s2 : ℤ) (R : ZMod A.q),
      EphemeralKey.add_signature_parts A t s1 s2 R =
        EphemeralKey.add_signature_parts A t' s1 s2 R) ∧
    (∀ (t t' : ZMod A.q) (s r_x : ℤ) (apk : ZMod A.q) (m : ℤ) (b : Bool),
      verify A t s r_x apk m b = verify A t' s r_x apk m b) :=
  ⟨fun _ => rfl, fun _ _ _ _ _ _ => rfl, fun _ _ _ _ _ => rfl,
   fun _ _ _ _ _ _ _ => rfl⟩

/-- C5: the pairwise and the N-party aggregator agree on two parties:
`key_aggregation(p1, p2)` coincides with `key_aggregation_n([p1, p2], 0)`
in both the aggregated key and the coefficient, and the aggregated key of
`key_aggregation_n([p1, p2], i)` is the same for `i = 0` and `i = 1`. -/
theorem key_aggregation_pair_agrees_with_n (p1 p2 : ZMod A.q) :
    KeyAgg.key_aggregation_n A [p1, p2] 0 =
      some (KeyAgg.key_aggregation A p1 p2) ∧
    (KeyAgg.key_aggregation_n A [p1, p2] 1).map KeyAgg.apk =
      some ((KeyAgg.key_aggregation A p1 p2).apk) := by
  constructor
  · show some
      (⟨(A.hash [1, A.xcoor p1, A.xcoor p1, A.xcoor p2] : ZMod A.q) * p1 +
        (A.hash [1, A.xcoor p2, A.xcoor p1, A.xcoor p2] : ZMod A.q) * p2,
        A.hash [1, A.xcoor p1, A.xcoor p1, A.xcoor p2]⟩ : KeyAgg A) = some _
    rw [key_aggregation_eq]
    simp only [Option.some.injEq, KeyAgg.mk.injEq]
    exact ⟨add_comm _ _, trivial⟩
  · show some
      ((A.hash [1, A.xcoor p1, A.xcoor p1, A.xcoor p2] : ZMod A.q) * p1 +
       (A.hash [1, A.xcoor p2, A.xcoor p1, A.xcoor p2] : ZMod A.q) * p2) = some _
    rw [key_aggregation_eq]
    exact congrArg some (add_comm _ _)

/-- C10: `key_aggregation_n(pks, party_index)` is well defined exactly when
`pks` is non-empty and `party_index < pks.len()`: with an empty list the
removal of the first aggregated point fails, and with an out-of-range index
the coefficient lookup `hash_vec[party_index]` fails (both modelled as
`none`). -/
theorem key_aggregation_n_welldefined_iff (pks : List (ZMod A.q)) (i : ℕ) :
    (KeyAgg.key_aggregation_n A pks i).isSome = true ↔
      pks ≠ [] ∧ i < pks.length := by
  cases pks with
  | nil => simp [KeyAgg.key_aggregation_n]
  | cons p ps =>
    simp [KeyAgg.key_aggregation_n, Option.isSome_map, Option.isSome_iff_ne_none,
      List.getElem?_eq_none_iff, Nat.lt_succ_iff]

/-- C6: an ephemeral key produced by `create()` passes `test_com` on its own
nonce point, blind factor and commitment; and, when the commitment function
is collision-free at this blind factor, `test_com` fails both on any point
whose x-coordinate differs from the nonce point's and on any commitment
value different from the produced one. -/
theorem commitment_roundtrip_and_binding (k : ZMod A.q) (bf : ℤ)
    (R2 : ZMod A.q) (comm2 : ℤ)
    (hcf : ∀ m1 m2 : ℤ, A.commit m1 bf = A.commit m2 bf → m1 = m2)
    (hx : A.xcoor R2 ≠
      A.xcoor (EphemeralKey.create A k bf).keypair.public_key)
    (hc : comm2 ≠ (EphemeralKey.create A k bf).commitment) :
    EphemeralKey.test_com A (EphemeralKey.create A k bf).keypair.public_key
        (EphemeralKey.create A k bf).blind_factor
        (EphemeralKey.create A k bf).commitment = true ∧
    EphemeralKey.test_com A R2
        (EphemeralKey.create A k bf).blind_factor
        (EphemeralKey.create A k bf).commitment = false ∧
    EphemeralKey.test_com A (EphemeralKey.create A k bf).keypair.public_key
        (EphemeralKey.create A k bf).blind_factor comm2 = false := by
  refine ⟨?_, ?_, ?_⟩ <;>
    simp only [EphemeralKey.test_com, EphemeralKey.create,
      HashCommitment.create_commitment, beq_iff_eq, beq_eq_false_iff_ne,
      ne_eq]
  · exact fun h => hx (hcf _ _ h)
  · exact fun h => hc h.symm

/-- Concrete instantiation of `commitment_roundtrip_and_binding` at the
executable collaborator `testAlg`, nonce scalar `3`, blind factor `5`,
foreign point `2` and tampered commitment `0`. -/
theorem commitment_roundtrip_and_binding_witness :
    EphemeralKey.test_com testAlg
        (EphemeralKey.create testAlg 3 5).keypair.public_key
        (EphemeralKey.create testAlg 3 5).blind_factor
        (EphemeralKey.create testAlg 3 5).commitment = true ∧
    EphemeralKey.test_com testAlg 2
        (EphemeralKey.create testAlg 3 5).blind_factor
        (EphemeralKey.create testAlg 3 5).commitment = false ∧
    EphemeralKey.test_com testAlg
        (EphemeralKey.create testAlg 3 5).keypair.public_key
        (EphemeralKey.create testAlg 3 5).blind_factor 0 = false :=
  commitment_roundtrip_and_binding testAlg 3 5 2 0
    (fun m1 m2 h => by
      have h2 : m1 * 4096 + 5 = m2 * 4096 + 5 := h
      omega)
    (by decide) (by decide)

/-- C3: evaluation of the code at a concrete input. The nonce scalar of
`create_from_private_key` is `H(private_key, message)` and its nonce point
is that scalar times the generator, as the claim says; but the commitment
is over the compressed-bytes encoding of the nonce point, whereas
`test_com` recomputes it from the x-coordinate, so the produced ephemeral
key fails its own commitment check. -/
theorem create_from_private_key_commitment_rejected :
    (EphemeralKey.create_from_private_key testAlg (KeyPair.create testAlg 3)
        2 9).keypair.private_key =
      FE.from_big_int testAlg (testAlg.hash
        [FE.to_big_int testAlg (KeyPair.create testAlg 3).private_key, 2]) ∧
    (EphemeralKey.create_from_private_key testAlg (KeyPair.create testAlg 3)
        2 9).keypair.public_key =
      GE.scalar_mul testAlg (ECPoint.new testAlg)
        (EphemeralKey.create_from_private_key testAlg (KeyPair.create testAlg 3)
          2 9).keypair.private_key ∧
    (EphemeralKey.create_from_private_key testAlg (KeyPair.create testAlg 3)
        2 9).commitment =
      testAlg.commit (testAlg.compressed
        (EphemeralKey.create_from_private_key testAlg (KeyPair.create testAlg 3)
          2 9).keypair.public_key) 9 ∧
    EphemeralKey.test_com testAlg
        (EphemeralKey.create_from_private_key testAlg (KeyPair.create testAlg 3)
          2 9).keypair.public_key
        (EphemeralKey.create_from_private_key testAlg (KeyPair.create testAlg 3)
          2 9).blind_factor
        (EphemeralKey.create_from_private_key testAlg (KeyPair.create testAlg 3)
          2 9).commitment = false := by
  refine ⟨rfl, rfl, rfl, ?_⟩
  decide

/-- The round-trip statement in explicit `let` form. -/
lemma round_trip_aux (x1 x2 r1 r2 : ZMod A.q) (bf1 bf2 m : ℤ)
    (t1 t2 t3 t4 : ZMod A.q) (b : Bool) :
    let kp1 := KeyPair.create A x1
    let kp2 := KeyPair.create A x2
    let e1 := EphemeralKey.create A r1 bf1
    let e2 := EphemeralKey.create A r2 bf2
    let apk := (KeyAgg.key_aggregation A kp1.public_key kp2.public_key).apk
    let a1 := ((KeyAgg.key_aggregation_n A
      [kp1.public_key, kp2.public_key] 0).getD ⟨0, 0⟩).hash
    let a2 := ((KeyAgg.key_aggregation_n A
      [kp1.public_key, kp2.public_key] 1).getD ⟨0, 0⟩).hash
    let R := EphemeralKey.add_ephemeral_pub_keys A
      e1.keypair.public_key e2.keypair.public_key
    let c := EphemeralKey.hash_0 A R apk m b
    let s1 := EphemeralKey.sign A t1 e1 c kp1 a1
    let s2 := EphemeralKey.sign A t2 e2 c kp2 a2
    let sig := EphemeralKey.add_signature_parts A t3 s1 s2 R
    verify A t4 sig.2 sig.1 apk m b = Except.ok () := by
  intro kp1 kp2 e1 e2 apk a1 a2 R c s1 s2 sig
  rw [verify_eq]
  have hsig1 : sig.1 = A.xcoor R := rfl
  have hsig2 : sig.2 = BigInt.mod_add s1 s2 ((A.q : ℕ) : ℤ) := rfl
  rw [hsig1, hsig2]
  have hc : (if b then A.hash [0, A.xcoor R, A.compressed apk, m]
      else A.hash [A.xcoor R, A.compressed apk, m]) = c := rfl
  rw [hc]
  have hS : ((BigInt.mod_add s1 s2 ((A.q : ℕ) : ℤ) : ℤ) : ZMod A.q) *
      ECPoint.new A - ((c : ℤ) : ZMod A.q) * apk = R := by
    have hs1 : s1 = BigInt.mod_add (FE.to_big_int A r1)
        (BigInt.mod_mul c
          (BigInt.mod_mul (FE.to_big_int A x1) a1 ((A.q : ℕ) : ℤ))
          ((A.q : ℕ) : ℤ))
        ((A.q : ℕ) : ℤ) := rfl
    have hs2 : s2 = BigInt.mod_add (FE.to_big_int A r2)
        (BigInt.mod_mul c
          (BigInt.mod_mul (FE.to_big_int A x2) a2 ((A.q : ℕ) : ℤ))
          ((A.q : ℕ) : ℤ))
        ((A.q : ℕ) : ℤ) := rfl
    have hapk : apk = GE.add_point A
        (GE.scalar_mul A kp2.public_key (FE.from_big_int A a2))
        (GE.scalar_mul A kp1.public_key (FE.from_big_int A a1)) := rfl
    have hR : R = GE.add_point A (GE.scalar_mul A (ECPoint.new A) r1)
        (GE.scalar_mul A (ECPoint.new A) r2) := rfl
    have hp1 : kp1.public_key = GE.scalar_mul A (ECPoint.new A) x1 := rfl
    have hp2 : kp2.public_key = GE.scalar_mul A (ECPoint.new A) x2 := rfl
    rw [hs1, hs2, hapk, hR, hp1, hp2]
    simp only [BigInt.mod_add, BigInt.mod_mul, GE.scalar_mul, GE.add_point,
      FE.from_big_int, FE.to_big_int, ECPoint.new]
    push_cast [intCast_q_mod]
    simp only [ZMod.natCast_zmod_val]
    ring
  rw [hS, if_pos rfl]

/-- C1: full two-party round trip. For all long-term key pairs, nonce key
pairs, blind factors, sampled scalars, message and mode bit, the signature
assembled from `key_aggregation` / `key_aggregation_n`,
`add_ephemeral_pub_keys`, `hash_0`, `sign` and `add_signature_parts`
verifies: `verify` returns `Ok(())`. -/
theorem two_party_round_trip (x1 x2 r1 r2 : ZMod A.q) (bf1 bf2 m : ℤ)
    (t1 t2 t3 t4 : ZMod A.q) (b : Bool) :
    round_trip_verify A x1 x2 r1 r2 bf1 bf2 m t1 t2 t3 t4 b =
      Except.ok () :=
  round_trip_aux A x1 x2 r1 r2 bf1 bf2 m t1 t2 t3 t4 b

end MultiSig
